import Mathlib

/-!
Verification of the Blurify redaction engine.

Shallow embedding of the two redaction pipelines:
  - text: `components/TextRedactor.tsx` (`handleExport`, the mask built in
    `renderBackdrop`);
  - image: `components/ImageRedactor.tsx` (`handleMouseDown` / `handleMouseMove` /
    `handleMouseUp`, the `onMouseLeave` wiring, and `handleExport`).
JavaScript strings are modelled as `List Char` (one entry per UTF-16 code unit
of interest), JavaScript numbers as `ℚ`, and `crypto.randomUUID` as a fresh
natural-number counter carried in the component state.
-/

namespace Blurify

/-! ### Text side: data model (types.ts `TextRange`) -/

/-- A committed text mark, `TextRange` in `types.ts`: half-open character
interval `[start, stop)`.  The source calls the second field `end`, which is a
reserved word in Lean. -/
structure TextRange where
  id : Nat
  start : Nat
  stop : Nat
  deriving DecidableEq, Repr

/-- The sentinel replacement character written by `handleExport`
(`TextRedactor.tsx` line 68). -/
def sentinel : Char := '█'

/-- The shared loop shape of `TextRedactor.tsx` lines 66-70 and 88-92: walk a
list of indices and overwrite each index of the array with `v`, with the
source's bounds guard `if (i < arr.length)`. -/
def setAll {α : Type} (v : α) (idxs : List Nat) (xs : List α) : List α :=
  idxs.foldl (fun acc i => if i < acc.length then acc.set i v else acc) xs

/-- The inner loop of `handleExport` (`TextRedactor.tsx` lines 66-70): for
`i = range.start` to `range.end - 1`, if `i < chars.length` then
`chars[i] = '█'`. -/
def setRange (chars : List Char) (r : TextRange) : List Char :=
  setAll sentinel (List.range' r.start (r.stop - r.start)) chars

/-- `handleExport` (`TextRedactor.tsx` lines 57-76), up to the external
download collaborator: split the content into characters, run the replacement
loop for every stored range in insertion order, and rejoin.  (The
`sortedRanges` binding at line 60 is computed but never used and so does not
appear here.) -/
def handleExport (content : List Char) (ranges : List TextRange) : List Char :=
  ranges.foldl setRange content

/-- The mask construction in `renderBackdrop` (`TextRedactor.tsx` lines
86-92): `new Array(text.length).fill(false)` then, for each range, set
`mask[i] = true` for `i` in `[start, end)` with the `i < mask.length`
guard. -/
def deriveMask (len : Nat) (ranges : List TextRange) : List Bool :=
  ranges.foldl (fun mask r => setAll true (List.range' r.start (r.stop - r.start)) mask)
    (List.replicate len false)

/-- `i` is covered by some stored range: the characterization predicate for the
mask and the export ("some mark's `[start, end)` contains `i`"). -/
def coveredBy (ranges : List TextRange) (i : Nat) : Bool :=
  ranges.any fun r => decide (r.start ≤ i) && decide (i < r.stop)

/-- Replacement driven by the derived mask instead of by the ranges directly:
the alternative export formulation that the spec compares against
(`exportViaMask` is the "using the mask derived from `R`" side of the
re-derivation property; the source's `handleExport` is the "using `R`
directly" side). -/
def exportViaMask (content : List Char) (ranges : List TextRange) : List Char :=
  List.zipWith (fun b c => if b then sentinel else c)
    (deriveMask content.length ranges) content

/-! ### Basic lemmas about the shared write loop -/

theorem length_setAll {α : Type} (v : α) (idxs : List Nat) (xs : List α) :
    (setAll v idxs xs).length = xs.length := by
  induction idxs generalizing xs with
  | nil => rfl
  | cons i idxs ih =>
    simp only [setAll, List.foldl_cons] at *
    rw [ih]
    split <;> simp [List.length_set]

theorem getElem?_setAll {α : Type} (v : α) (idxs : List Nat) (xs : List α) (j : Nat) :
    (setAll v idxs xs)[j]? =
      if j ∈ idxs ∧ j < xs.length then some v else xs[j]? := by
  induction idxs generalizing xs with
  | nil => simp [setAll]
  | cons i idxs ih =>
    have hstep : setAll v (i :: idxs) xs =
        setAll v idxs (if i < xs.length then xs.set i v else xs) := rfl
    have hlen : (if i < xs.length then xs.set i v else xs).length = xs.length := by
      split <;> simp [List.length_set]
    have hbase : (if i < xs.length then xs.set i v else xs)[j]? =
        if i = j ∧ j < xs.length then some v else xs[j]? := by
      by_cases hi : i < xs.length
      · rw [if_pos hi, List.getElem?_set]
        by_cases hij : i = j
        · subst hij
          rw [if_pos rfl, if_pos hi, if_pos ⟨rfl, hi⟩]
        · rw [if_neg hij, if_neg (fun h => hij h.1)]
      · rw [if_neg hi, if_neg]
        rintro ⟨rfl, hj⟩
        exact hi hj
    rw [hstep, ih, hlen, hbase]
    by_cases hj : j < xs.length
    · by_cases hmem : j ∈ idxs
      · rw [if_pos ⟨hmem, hj⟩, if_pos ⟨List.mem_cons_of_mem i hmem, hj⟩]
      · rw [if_neg (fun h => hmem h.1)]
        by_cases hij : i = j
        · rw [if_pos ⟨hij, hj⟩, if_pos ⟨List.mem_cons.2 (Or.inl hij.symm), hj⟩]
        · rw [if_neg (fun h => hij h.1), if_neg]
          rintro ⟨hm, -⟩
          rcases List.mem_cons.1 hm with h | h
          · exact hij h.symm
          · exact hmem h
    · rw [if_neg (fun h => hj h.2), if_neg (fun h => hj h.2), if_neg (fun h => hj h.2)]

theorem mem_range'_interval (s t j : Nat) :
    j ∈ List.range' s (t - s) ↔ s ≤ j ∧ j < t := by
  rw [List.mem_range'_1]
  omega

/-- Pointwise description of a fold of write loops: after running the loop for
every element of `rs`, index `j` holds `v` exactly when some element's index
list mentions `j` (and `j` is in bounds), and is untouched otherwise. -/
theorem getElem?_foldl_setAll {α β : Type} (v : α) (f : β → List Nat)
    (rs : List β) (xs : List α) (j : Nat) :
    (rs.foldl (fun acc r => setAll v (f r) acc) xs)[j]? =
      if (∃ r ∈ rs, j ∈ f r) ∧ j < xs.length then some v else xs[j]? := by
  induction rs generalizing xs with
  | nil => simp
  | cons r rs ih =>
    rw [List.foldl_cons, ih, length_setAll, getElem?_setAll]
    by_cases hj : j < xs.length
    · by_cases hrs : ∃ r' ∈ rs, j ∈ f r'
      · rcases hrs with ⟨r', hr', hm⟩
        rw [if_pos ⟨⟨r', hr', hm⟩, hj⟩,
          if_pos ⟨⟨r', List.mem_cons_of_mem r hr', hm⟩, hj⟩]
      · rw [if_neg (fun h => hrs h.1)]
        by_cases hr : j ∈ f r
        · rw [if_pos ⟨hr, hj⟩, if_pos ⟨⟨r, List.mem_cons_self r rs, hr⟩, hj⟩]
        · rw [if_neg (fun h => hr h.1), if_neg]
          rintro ⟨⟨r', hr', hm⟩, -⟩
          rcases List.mem_cons.1 hr' with h | h
          · exact hr (h ▸ hm)
          · exact hrs ⟨r', h, hm⟩
    · rw [if_neg (fun h => hj h.2), if_neg (fun h => hj h.2), if_neg (fun h => hj h.2)]

theorem length_foldl_setAll {α β : Type} (v : α) (f : β → List Nat)
    (rs : List β) (xs : List α) :
    (rs.foldl (fun acc r => setAll v (f r) acc) xs).length = xs.length := by
  induction rs generalizing xs with
  | nil => rfl
  | cons r rs ih => rw [List.foldl_cons, ih, length_setAll]

/-! ### Pointwise characterizations of export and mask -/

theorem coveredBy_iff (ranges : List TextRange) (i : Nat) :
    coveredBy ranges i = true ↔ ∃ r ∈ ranges, r.start ≤ i ∧ i < r.stop := by
  simp [coveredBy, List.any_eq_true]

theorem length_handleExport (content : List Char) (ranges : List TextRange) :
    (handleExport content ranges).length = content.length :=
  length_foldl_setAll sentinel _ ranges content

theorem covered_range'_iff (ranges : List TextRange) (j : Nat) :
    (∃ r ∈ ranges, j ∈ List.range' r.start (r.stop - r.start)) ↔
      coveredBy ranges j = true := by
  rw [coveredBy_iff]
  constructor
  · rintro ⟨r, hr, hm⟩
    exact ⟨r, hr, (mem_range'_interval _ _ _).1 hm⟩
  · rintro ⟨r, hr, hm⟩
    exact ⟨r, hr, (mem_range'_interval _ _ _).2 hm⟩

theorem getElem?_handleExport (content : List Char) (ranges : List TextRange) (j : Nat) :
    (handleExport content ranges)[j]? =
      if coveredBy ranges j = true ∧ j < content.length then some sentinel
      else content[j]? := by
  have h0 : handleExport content ranges = ranges.foldl
      (fun acc (r : TextRange) =>
        setAll sentinel (List.range' r.start (r.stop - r.start)) acc) content := rfl
  rw [h0, getElem?_foldl_setAll]
  exact if_congr (and_congr_left' (covered_range'_iff ranges j)) rfl rfl

theorem length_deriveMask (len : Nat) (ranges : List TextRange) :
    (deriveMask len ranges).length = len := by
  rw [deriveMask, length_foldl_setAll, List.length_replicate]

theorem getElem?_deriveMask (len : Nat) (ranges : List TextRange) (j : Nat) :
    (deriveMask len ranges)[j]? =
      if j < len then some (coveredBy ranges j) else none := by
  rw [deriveMask, getElem?_foldl_setAll, List.length_replicate, List.getElem?_replicate]
  have hsame := covered_range'_iff ranges j
  by_cases hj : j < len
  · by_cases hc : coveredBy ranges j = true
    · rw [if_pos ⟨hsame.mpr hc, hj⟩, if_pos hj, hc]
    · have hc' : coveredBy ranges j = false := by
        cases hcv : coveredBy ranges j
        · rfl
        · exact absurd hcv hc
      rw [if_neg (fun h => hc (hsame.mp h.1)), if_pos hj, if_pos hj, hc']
  · rw [if_neg (fun h => hj h.2), if_neg hj, if_neg hj]

/-! ### Image side: data model (types.ts `Box`) and the drawing state machine
of `ImageRedactor.tsx` -/

/-- A committed image mark, `Box` in `types.ts`: display-pixel position and
size.  `crypto.randomUUID()` is modelled by a natural-number identifier drawn
from a per-session counter. -/
structure Box where
  id : Nat
  x : ℚ
  y : ℚ
  w : ℚ
  h : ℚ
  deriving DecidableEq, Repr

/-- The in-progress rectangle (`currentBox`): position plus signed size, no
identifier yet.  During a drag, `w` and `h` may be negative. -/
structure PendingBox where
  x : ℚ
  y : ℚ
  w : ℚ
  h : ℚ
  deriving DecidableEq, Repr

/-- The component state of `ImageRedactor` that the mouse handlers touch:
`boxes`, `currentBox`, `isDrawing`, plus the identifier counter standing in
for `crypto.randomUUID()`. -/
structure RedactorState where
  boxes : List Box
  currentBox : Option PendingBox
  isDrawing : Bool
  nextId : Nat
  deriving DecidableEq, Repr

/-- `handleMouseDown` (`ImageRedactor.tsx` lines 28-36) at relative
coordinates `(x, y)`: start drawing a zero-size pending box. -/
def handleMouseDown (s : RedactorState) (x y : ℚ) : RedactorState :=
  { s with isDrawing := true, currentBox := some ⟨x, y, 0, 0⟩ }

/-- `handleMouseMove` (`ImageRedactor.tsx` lines 38-60) at relative
coordinates `(x, y)` on a surface of extent `(cw, ch)`: clamp the pointer to
the surface and recompute the pending box's signed size. -/
def handleMouseMove (s : RedactorState) (x y cw ch : ℚ) : RedactorState :=
  match s.currentBox, s.isDrawing with
  | some cb, true =>
      let currentX := max 0 (min x cw)
      let currentY := max 0 (min y ch)
      { s with currentBox := some ⟨cb.x, cb.y, currentX - cb.x, currentY - cb.y⟩ }
  | _, _ => s

/-- The normalization at the top of `handleMouseUp` (`ImageRedactor.tsx`
lines 66-70): `if (w < 0) { x += w; w = Math.abs(w); }` and the same for
`h`. -/
def normalizeBox (cb : PendingBox) : PendingBox :=
  { x := if cb.w < 0 then cb.x + cb.w else cb.x
    w := if cb.w < 0 then -cb.w else cb.w
    y := if cb.h < 0 then cb.y + cb.h else cb.y
    h := if cb.h < 0 then -cb.h else cb.h }

/-- `handleMouseUp` (`ImageRedactor.tsx` lines 62-77): bail out unless a
drawing is in progress, normalize the pending box, append it to `boxes` only
when `w > 5 && h > 5` (with a fresh identifier), and always clear the pending
box. -/
def handleMouseUp (s : RedactorState) : RedactorState :=
  match s.currentBox, s.isDrawing with
  | some cb, true =>
      let n := normalizeBox cb
      if 5 < n.w ∧ 5 < n.h then
        { boxes := s.boxes ++ [⟨s.nextId, n.x, n.y, n.w, n.h⟩]
          currentBox := none
          isDrawing := false
          nextId := s.nextId + 1 }
      else
        { boxes := s.boxes
          currentBox := none
          isDrawing := false
          nextId := s.nextId }
  | _, _ => s

/-- The `onMouseLeave` wiring of the drawing surface (`ImageRedactor.tsx`
line 164): the JSX attaches the very same `handleMouseUp` handler,
`onMouseLeave={handleMouseUp}`. -/
def onMouseLeave : RedactorState → RedactorState :=
  handleMouseUp

/-- `removeBox` (`ImageRedactor.tsx` lines 79-81). -/
def removeBox (s : RedactorState) (id : Nat) : RedactorState :=
  { s with boxes := s.boxes.filter fun b => b.id ≠ id }

/-- The image reference available to `handleExport`: the natural (source)
pixel dimensions plus the current display dimensions, the four quantities the
export reads from the `<img>` element. -/
structure ImgData where
  naturalW : ℚ
  naturalH : ℚ
  displayW : ℚ
  displayH : ℚ
  deriving DecidableEq, Repr

/-- `handleExport` of `ImageRedactor.tsx` (lines 83-132), up to the canvas
drawing collaborator: `if (!imageRef.current) return;` is the guard for a
missing image.  The first component is `some` of the list of
natural-resolution rectangles handed to the canvas (one per box, in insertion
order, each axis scaled by `natural / display`) when an export is produced,
and `none` when the guard fires.  The second component records whether any
error is reported to the user on the guard path; the source's bare `return`
reports nothing. -/
def handleExportImage (imageRef : Option ImgData) (boxes : List Box) :
    Option (List (ℚ × ℚ × ℚ × ℚ)) × Bool :=
  match imageRef with
  | none => (none, false)
  | some img =>
      let scaleX := img.naturalW / img.displayW
      let scaleY := img.naturalH / img.displayH
      (some (boxes.map fun box =>
        (box.x * scaleX, box.y * scaleY, box.w * scaleX, box.h * scaleY)), false)

/-- The set of display-plane points covered by a (possibly sign-denormalized)
rectangle: each axis spans from the smaller to the larger of the two corner
coordinates.  This is the geometric footprint that the rendering of
`currentBox` (`ImageRedactor.tsx` lines 198-208) realizes via
`min`/`Math.abs`. -/
def covers (b : PendingBox) (px py : ℚ) : Prop :=
  min b.x (b.x + b.w) ≤ px ∧ px ≤ max b.x (b.x + b.w) ∧
  min b.y (b.y + b.h) ≤ py ∧ py ≤ max b.y (b.y + b.h)

theorem normalizeBox_w (cb : PendingBox) : (normalizeBox cb).w = |cb.w| := by
  show (if cb.w < 0 then -cb.w else cb.w) = |cb.w|
  by_cases h : cb.w < 0
  · rw [if_pos h, abs_of_neg h]
  · rw [if_neg h, abs_of_nonneg (le_of_not_lt h)]

theorem normalizeBox_h (cb : PendingBox) : (normalizeBox cb).h = |cb.h| := by
  show (if cb.h < 0 then -cb.h else cb.h) = |cb.h|
  by_cases h : cb.h < 0
  · rw [if_pos h, abs_of_neg h]
  · rw [if_neg h, abs_of_nonneg (le_of_not_lt h)]

/-! ### Further helper lemmas -/

theorem getElem?_zipWith_eq {α β γ : Type} (f : α → β → γ) (as : List α) (bs : List β)
    (i : Nat) :
    (List.zipWith f as bs)[i]? =
      match as[i]?, bs[i]? with
      | some a, some b => some (f a b)
      | _, _ => none := by
  induction as generalizing bs i with
  | nil => cases hb : bs[i]? <;> simp
  | cons a as ih =>
    cases bs with
    | nil => cases i <;> simp
    | cons b bs =>
      cases i with
      | zero => simp
      | succ i => simpa using ih bs i

theorem coveredBy_eq_of_mem_iff (p q : List TextRange) (i : Nat)
    (h : ∀ r : TextRange, r ∈ p ↔ r ∈ q) : coveredBy p i = coveredBy q i := by
  rw [Bool.eq_iff_iff, coveredBy_iff, coveredBy_iff]
  constructor
  · rintro ⟨r, hr, hri⟩
    exact ⟨r, (h r).1 hr, hri⟩
  · rintro ⟨r, hr, hri⟩
    exact ⟨r, (h r).2 hr, hri⟩

/-- Clamping every range's upper end to the document length does not change
coverage of in-bounds indices. -/
theorem coveredBy_clamp (ranges : List TextRange) (len i : Nat) (hi : i < len) :
    coveredBy (ranges.map fun r => ⟨r.id, r.start, min r.stop len⟩) i =
      coveredBy ranges i := by
  rw [Bool.eq_iff_iff, coveredBy_iff, coveredBy_iff]
  constructor
  · rintro ⟨r', hr', hs, he⟩
    rcases List.mem_map.1 hr' with ⟨r, hr, rfl⟩
    exact ⟨r, hr, hs, lt_of_lt_of_le he (min_le_left _ _)⟩
  · rintro ⟨r, hr, hs, he⟩
    exact ⟨⟨r.id, r.start, min r.stop len⟩,
      List.mem_map.2 ⟨r, hr, rfl⟩, hs, lt_min he hi⟩

/-! ### Claims about the text pipeline -/

/-- C1: for every document and every set of committed text ranges, the
exported text has exactly the length of the source document; every in-bounds
index covered by some range holds the sentinel character and every other
index holds the original character (character-for-character replacement,
never deletion). -/
theorem export_replaces_characterwise (content : List Char) (ranges : List TextRange) :
    (handleExport content ranges).length = content.length ∧
    ∀ j : Nat, (handleExport content ranges)[j]? =
      if coveredBy ranges j = true ∧ j < content.length then some sentinel
      else content[j]? :=
  ⟨length_handleExport content ranges, fun j => getElem?_handleExport content ranges j⟩

/-- C3: the derived mask is a boolean array of the document's length with
`mask[i] = true` exactly when some range's half-open interval contains `i`
(union semantics); in particular the ranges `[(0,5), (3,8)]` over a
10-character document yield the mask `[T,T,T,T,T,T,T,T,F,F]`. -/
theorem mask_is_union_of_ranges (len : Nat) (ranges : List TextRange) :
    ((deriveMask len ranges).length = len ∧
     ∀ i : Nat, i < len →
       ((deriveMask len ranges)[i]? = some true ↔
         ∃ r ∈ ranges, r.start ≤ i ∧ i < r.stop)) ∧
    deriveMask 10 [⟨0, 0, 5⟩, ⟨1, 3, 8⟩] =
      [true, true, true, true, true, true, true, true, false, false] := by
  refine ⟨⟨length_deriveMask len ranges, fun i hi => ?_⟩, by decide⟩
  rw [getElem?_deriveMask, if_pos hi]
  rw [← coveredBy_iff]
  constructor
  · intro h
    exact Option.some_injective _ h
  · intro h
    rw [h]

theorem mask_is_union_of_ranges_witness :
    (deriveMask 10 [⟨0, 0, 5⟩, ⟨1, 3, 8⟩]).length = 10 ∧
    ((deriveMask 10 [⟨0, 0, 5⟩, ⟨1, 3, 8⟩])[6]? = some true ↔
      ∃ r ∈ [(⟨0, 0, 5⟩ : TextRange), ⟨1, 3, 8⟩], r.start ≤ 6 ∧ 6 < r.stop) :=
  ⟨(mask_is_union_of_ranges 10 [⟨0, 0, 5⟩, ⟨1, 3, 8⟩]).1.1,
   (mask_is_union_of_ranges 10 [⟨0, 0, 5⟩, ⟨1, 3, 8⟩]).1.2 6 (by decide)⟩

/-- C6: exporting by replacing index-by-index from the ranges directly (the
source's `handleExport`) and exporting by replacing the characters the
derived mask marks yield identical text, for every document and every set of
ranges — overlapping, nested or disjoint. -/
theorem export_eq_export_via_mask (content : List Char) (ranges : List TextRange) :
    handleExport content ranges = exportViaMask content ranges := by
  apply List.ext_getElem?
  intro i
  rw [getElem?_handleExport, exportViaMask, getElem?_zipWith_eq, getElem?_deriveMask]
  by_cases hi : i < content.length
  · have hc : content[i]? = some content[i] := List.getElem?_eq_getElem hi
    rw [if_pos hi, hc]
    by_cases hcov : coveredBy ranges i = true
    · rw [if_pos ⟨hcov, hi⟩, hcov]
      rfl
    · have hfalse : coveredBy ranges i = false := by
        cases h : coveredBy ranges i
        · rfl
        · exact absurd h hcov
      rw [if_neg (fun h => hcov h.1), hfalse]
      rfl
  · have hc : content[i]? = none := List.getElem?_eq_none (le_of_not_lt hi)
    rw [if_neg hi, if_neg (fun h => hi h.2), hc]

/-- C7: mask derivation is order-independent — any two permutations of the
same ranges produce identical masks. -/
theorem mask_perm_invariant (len : Nat) (p q : List TextRange) (h : p.Perm q) :
    deriveMask len p = deriveMask len q := by
  apply List.ext_getElem?
  intro i
  rw [getElem?_deriveMask, getElem?_deriveMask,
    coveredBy_eq_of_mem_iff p q i fun r => h.mem_iff]

theorem mask_perm_invariant_witness :
    ([(⟨0, 0, 5⟩ : TextRange), ⟨1, 3, 8⟩].Perm [⟨1, 3, 8⟩, ⟨0, 0, 5⟩]) ∧
    deriveMask 10 [⟨0, 0, 5⟩, ⟨1, 3, 8⟩] = deriveMask 10 [⟨1, 3, 8⟩, ⟨0, 0, 5⟩] :=
  ⟨by decide, mask_perm_invariant 10 _ _ (by decide)⟩

/-- C10: the export and the mask derivation are total even when a stored
range extends past the document's end — the bounds guard skips out-of-bounds
indices, so clamping every range to the document length changes nothing, and
the exported length and the mask length still equal the document length. -/
theorem oob_ranges_are_skipped (content : List Char) (ranges : List TextRange) :
    (handleExport content ranges).length = content.length ∧
    (deriveMask content.length ranges).length = content.length ∧
    handleExport content ranges =
      handleExport content (ranges.map fun r => ⟨r.id, r.start, min r.stop content.length⟩) ∧
    deriveMask content.length ranges =
      deriveMask content.length
        (ranges.map fun r => ⟨r.id, r.start, min r.stop content.length⟩) := by
  refine ⟨length_handleExport content ranges, length_deriveMask _ ranges, ?_, ?_⟩
  · apply List.ext_getElem?
    intro i
    rw [getElem?_handleExport, getElem?_handleExport]
    by_cases hi : i < content.length
    · rw [coveredBy_clamp ranges content.length i hi]
    · rw [if_neg (fun h => hi h.2), if_neg (fun h => hi h.2)]
  · apply List.ext_getElem?
    intro i
    rw [getElem?_deriveMask, getElem?_deriveMask]
    by_cases hi : i < content.length
    · rw [coveredBy_clamp ranges content.length i hi]
    · rw [if_neg hi, if_neg hi]

/-! ### Claims about the image pipeline -/

/-- C2 counterexample: invoking image export with no source image available
reports no error at all — the guard is a bare early return, so the condition
is silently ignored rather than loudly reported as the claim demands. -/
theorem null_image_export_reports_no_error :
    (handleExportImage none []).2 = false := rfl

/-- C2 (amended): when image export is invoked while the source image
reference is unavailable, the export is a no-op that does not crash — no
rectangle list is produced — and the condition is silently ignored: no error
is reported. -/
theorem null_image_export_is_silent_noop (boxes : List Box) :
    handleExportImage none boxes = (none, false) := rfl

/-- Reduction of `handleMouseUp` on a state with a drawing in progress:
normalize, filter, clear. -/
theorem handleMouseUp_drawing (bs : List Box) (cb : PendingBox) (snid : Nat) :
    handleMouseUp ⟨bs, some cb, true, snid⟩ =
      if 5 < (normalizeBox cb).w ∧ 5 < (normalizeBox cb).h then
        ⟨bs ++ [⟨snid, (normalizeBox cb).x, (normalizeBox cb).y,
          (normalizeBox cb).w, (normalizeBox cb).h⟩], none, false, snid + 1⟩
      else ⟨bs, none, false, snid⟩ := rfl

/-- C4: a drawn rectangle whose normalized width or height is at most 5
display pixels is never appended to the mark collection; one with both
strictly above 5 is always appended, carrying a freshly generated identifier
distinct from every identifier already in the collection. -/
theorem minsize_filter (s : RedactorState) (cb : PendingBox)
    (hdraw : s.isDrawing = true) (hcb : s.currentBox = some cb) :
    ((|cb.w| ≤ 5 ∨ |cb.h| ≤ 5) → (handleMouseUp s).boxes = s.boxes) ∧
    (5 < |cb.w| → 5 < |cb.h| →
      (handleMouseUp s).boxes = s.boxes ++
        [⟨s.nextId, (normalizeBox cb).x, (normalizeBox cb).y,
          (normalizeBox cb).w, (normalizeBox cb).h⟩] ∧
      ((∀ b ∈ s.boxes, b.id < s.nextId) → ∀ b ∈ s.boxes, b.id ≠ s.nextId)) := by
  obtain ⟨bs, scb, sid, snid⟩ := s
  simp only at hdraw hcb
  subst hdraw
  subst hcb
  constructor
  · intro hle
    have hneg : ¬(5 < (normalizeBox cb).w ∧ 5 < (normalizeBox cb).h) := by
      rintro ⟨h1, h2⟩
      rw [normalizeBox_w] at h1
      rw [normalizeBox_h] at h2
      rcases hle with h | h
      · exact absurd h1 (not_lt_of_le h)
      · exact absurd h2 (not_lt_of_le h)
    rw [handleMouseUp_drawing, if_neg hneg]
  · intro hw hh
    have hpos : 5 < (normalizeBox cb).w ∧ 5 < (normalizeBox cb).h := by
      rw [normalizeBox_w, normalizeBox_h]
      exact ⟨hw, hh⟩
    constructor
    · rw [handleMouseUp_drawing, if_pos hpos]
    · intro hlt b hb he
      have := hlt b hb
      rw [he] at this
      exact lt_irrefl _ this

theorem minsize_filter_witness :
    (handleMouseUp ⟨[], some ⟨1, 1, 10, 10⟩, true, 0⟩).boxes =
      [] ++ [⟨0, (normalizeBox ⟨1, 1, 10, 10⟩).x, (normalizeBox ⟨1, 1, 10, 10⟩).y,
        (normalizeBox ⟨1, 1, 10, 10⟩).w, (normalizeBox ⟨1, 1, 10, 10⟩).h⟩] :=
  ((minsize_filter ⟨[], some ⟨1, 1, 10, 10⟩, true, 0⟩ ⟨1, 1, 10, 10⟩ rfl rfl).2
    (by decide) (by decide)).1

/-- C5: normalization of a drawn rectangle yields non-negative width and
height and leaves the rectangle's geometric footprint — the set of
display-plane points it covers — unchanged. -/
theorem normalize_preserves_footprint (cb : PendingBox) :
    0 ≤ (normalizeBox cb).w ∧ 0 ≤ (normalizeBox cb).h ∧
    ∀ px py : ℚ, covers (normalizeBox cb) px py ↔ covers cb px py := by
  refine ⟨?_, ?_, ?_⟩
  · rw [normalizeBox_w]
    exact abs_nonneg _
  · rw [normalizeBox_h]
    exact abs_nonneg _
  · intro px py
    have exmin : min (normalizeBox cb).x ((normalizeBox cb).x + (normalizeBox cb).w) =
        min cb.x (cb.x + cb.w) := by
      show min (if cb.w < 0 then cb.x + cb.w else cb.x)
        ((if cb.w < 0 then cb.x + cb.w else cb.x) + if cb.w < 0 then -cb.w else cb.w) = _
      by_cases h : cb.w < 0
      · simp only [if_pos h]
        rw [show cb.x + cb.w + -cb.w = cb.x from by ring, min_comm]
      · simp only [if_neg h]
    have exmax : max (normalizeBox cb).x ((normalizeBox cb).x + (normalizeBox cb).w) =
        max cb.x (cb.x + cb.w) := by
      show max (if cb.w < 0 then cb.x + cb.w else cb.x)
        ((if cb.w < 0 then cb.x + cb.w else cb.x) + if cb.w < 0 then -cb.w else cb.w) = _
      by_cases h : cb.w < 0
      · simp only [if_pos h]
        rw [show cb.x + cb.w + -cb.w = cb.x from by ring, max_comm]
      · simp only [if_neg h]
    have eymin : min (normalizeBox cb).y ((normalizeBox cb).y + (normalizeBox cb).h) =
        min cb.y (cb.y + cb.h) := by
      show min (if cb.h < 0 then cb.y + cb.h else cb.y)
        ((if cb.h < 0 then cb.y + cb.h else cb.y) + if cb.h < 0 then -cb.h else cb.h) = _
      by_cases h : cb.h < 0
      · simp only [if_pos h]
        rw [show cb.y + cb.h + -cb.h = cb.y from by ring, min_comm]
      · simp only [if_neg h]
    have eymax : max (normalizeBox cb).y ((normalizeBox cb).y + (normalizeBox cb).h) =
        max cb.y (cb.y + cb.h) := by
      show max (if cb.h < 0 then cb.y + cb.h else cb.y)
        ((if cb.h < 0 then cb.y + cb.h else cb.y) + if cb.h < 0 then -cb.h else cb.h) = _
      by_cases h : cb.h < 0
      · simp only [if_pos h]
        rw [show cb.y + cb.h + -cb.h = cb.y from by ring, max_comm]
      · simp only [if_neg h]
    show (_ ∧ _ ∧ _ ∧ _) ↔ (_ ∧ _ ∧ _ ∧ _)
    rw [exmin, exmax, eymin, eymax]

/-- C8: a committed mark at display rectangle `(x,y,w,h)` is mapped by the
export to the natural-resolution rectangle
`(x * sx, y * sy, w * sx, h * sy)`, each axis scaled independently by its own
natural-over-display factor; in particular natural size 1000 by 500 shown at
500 by 250 maps the display rectangle `(80,50,20,30)` to `(160,100,40,60)`. -/
theorem export_scales_each_axis (img : ImgData) (boxes : List Box) (i : Nat) :
    (((handleExportImage (some img) boxes).1).getD [])[i]? =
      boxes[i]?.map (fun b =>
        (b.x * (img.naturalW / img.displayW), b.y * (img.naturalH / img.displayH),
         b.w * (img.naturalW / img.displayW), b.h * (img.naturalH / img.displayH))) ∧
    handleExportImage (some ⟨1000, 500, 500, 250⟩) [⟨0, 80, 50, 20, 30⟩] =
      (some [(160, 100, 40, 60)], false) := by
  constructor
  · show (boxes.map fun box =>
      (box.x * (img.naturalW / img.displayW), box.y * (img.naturalH / img.displayH),
       box.w * (img.naturalW / img.displayW), box.h * (img.naturalH / img.displayH)))[i]? = _
    rw [List.getElem?_map]
  · show (some [((80 : ℚ) * (1000 / 500), (50 : ℚ) * (500 / 250),
      (20 : ℚ) * (1000 / 500), (30 : ℚ) * (500 / 250))], false) = _
    norm_num

/-- C9: the pointer leaving the drawing surface triggers the very same
handler as releasing the pointer, so aborting a gesture runs the same
normalization and minimum-size filter on the pending rectangle and always
clears it — there is no separate discard path. -/
theorem leave_equals_complete (s : RedactorState) :
    onMouseLeave s = handleMouseUp s ∧
    ∀ cb, s.isDrawing = true → s.currentBox = some cb →
      (handleMouseUp s).currentBox = none ∧
      (handleMouseUp s).boxes =
        (if 5 < (normalizeBox cb).w ∧ 5 < (normalizeBox cb).h
         then s.boxes ++ [⟨s.nextId, (normalizeBox cb).x, (normalizeBox cb).y,
           (normalizeBox cb).w, (normalizeBox cb).h⟩]
         else s.boxes) := by
  refine ⟨rfl, ?_⟩
  intro cb hdraw hcb
  obtain ⟨bs, scb, sid, snid⟩ := s
  simp only at hdraw hcb
  subst hdraw
  subst hcb
  constructor
  · by_cases hc : 5 < (normalizeBox cb).w ∧ 5 < (normalizeBox cb).h
    · rw [handleMouseUp_drawing, if_pos hc]
    · rw [handleMouseUp_drawing, if_neg hc]
  · by_cases hc : 5 < (normalizeBox cb).w ∧ 5 < (normalizeBox cb).h
    · rw [handleMouseUp_drawing, if_pos hc, if_pos hc]
    · rw [handleMouseUp_drawing, if_neg hc, if_neg hc]

theorem leave_equals_complete_witness :
    onMouseLeave ⟨[], some ⟨2, 2, 4, 4⟩, true, 7⟩ =
      handleMouseUp ⟨[], some ⟨2, 2, 4, 4⟩, true, 7⟩ ∧
    (handleMouseUp ⟨[], some ⟨2, 2, 4, 4⟩, true, 7⟩).currentBox = none ∧
    (handleMouseUp ⟨[], some ⟨2, 2, 4, 4⟩, true, 7⟩).boxes =
      (if 5 < (normalizeBox ⟨2, 2, 4, 4⟩).w ∧ 5 < (normalizeBox ⟨2, 2, 4, 4⟩).h
       then [] ++ [⟨7, (normalizeBox ⟨2, 2, 4, 4⟩).x, (normalizeBox ⟨2, 2, 4, 4⟩).y,
         (normalizeBox ⟨2, 2, 4, 4⟩).w, (normalizeBox ⟨2, 2, 4, 4⟩).h⟩]
       else []) :=
  ⟨(leave_equals_complete ⟨[], some ⟨2, 2, 4, 4⟩, true, 7⟩).1,
   ((leave_equals_complete ⟨[], some ⟨2, 2, 4, 4⟩, true, 7⟩).2 ⟨2, 2, 4, 4⟩ rfl rfl).1,
   ((leave_equals_complete ⟨[], some ⟨2, 2, 4, 4⟩, true, 7⟩).2 ⟨2, 2, 4, 4⟩ rfl rfl).2⟩

end Blurify
